import Mathlib

/-!
Verification of the spherical-harmonics light-probe kernel
(`spherical.rs`, `spherical_harmonics.rs`, `spherical_integration.rs`,
`main.rs`).

Embedding conventions:
* `f32` arithmetic is embedded as exact rational arithmetic (`ℚ`); decimal
  literals from the source are taken at their written decimal value.
  `std::f32::consts::PI` is a concrete `f32` constant, embedded as its exact
  rational value `13176795 / 4194304`.
* The Rust code is generic over a random generator `R : Rng` that is mutated
  by each draw.  We embed a source of random directions in state-passing
  style as a function `σ → Direction × σ` over an abstract generator state
  `σ`, and a source of raw uniform draws as a stream `ℕ → ℝ × ℝ × ℝ`.
* `Direction::generate_random_on_sphere` divides by the square root of the
  candidate's squared norm; square roots force that one sampler (and only
  it) to be embedded over `ℝ` with `Real.sqrt`.
* `Vec<f32>` becomes `List ℚ`; the indexed loops `for i in 0..9` become
  folds over `List.range 9` with `List.set` / `List.getD`.
* The `assert!` in `Direction::new` (a panic) is embedded as `Option`:
  `none` is the panic.
-/

/-- Exact rational value of the `f32` constant `std::f32::consts::PI`
(bit pattern `0x40490FDB`, value `13176795 * 2⁻²²`). -/
def PI : ℚ := 13176795 / 4194304

/-- `Direction` from `spherical.rs`: three float components.  The unit-norm
invariant is enforced at `Direction.new`, not by the type. -/
structure Direction where
  x : ℚ
  y : ℚ
  z : ℚ
deriving DecidableEq, Repr

/-- `Direction::new` from `spherical.rs` lines 12–15:
`assert!((x*x + y*y + z*z - 1).abs() < 1e-5)` then builds the struct with the
given components.  The panic of a failed `assert!` is embedded as `none`. -/
def Direction.new (x y z : ℚ) : Option Direction :=
  if |x * x + y * y + z * z - 1| < 1e-5 then some ⟨x, y, z⟩ else none

/-- Modelled from the spec: `Direction::dot` is called by `main.rs`
(`normal.dot(&direction)`) but its definition is not among the sources.
The spec (§4.1, §8) uses `dot(normal, direction)` as the standard euclidean
dot product of the two unit vectors. -/
def Direction.dot (a b : Direction) : ℚ :=
  a.x * b.x + a.y * b.y + a.z * b.z

/-- Modelled from the spec: `Direction::generate_random_on_hemisphere` is
called by `integrate_real_space_hemisphere` (`spherical_integration.rs`) but
its definition is not among the sources.  Per the spec (§4.1) it draws a
direction over the hemisphere oriented by `normal`; the exact conditional
distribution is an implementation choice and the only hard contract is
`dot(normal, direction) ≥ 0`.  We model it as drawing a full-sphere
direction from the supplied sampler and reflecting it through the origin
whenever it falls in the wrong hemisphere. -/
def Direction.generate_random_on_hemisphere {σ : Type}
    (normal : Direction) (sample : σ → Direction × σ) (rng : σ) :
    Direction × σ :=
  let p := sample rng
  if Direction.dot normal p.1 < 0 then (⟨-p.1.x, -p.1.y, -p.1.z⟩, p.2) else p

/-- `SHFuncApproximation` from `spherical_harmonics.rs`: a `Vec<f32>` of
spherical-harmonic coefficients (length 9 by construction). -/
structure SHFuncApproximation where
  coefficients : List ℚ
deriving DecidableEq, Repr

/-- `SHFuncApproximation::new`: `vec![0f32; 9]`. -/
def SHFuncApproximation.new : SHFuncApproximation :=
  ⟨List.replicate 9 0⟩

/-- `SHFuncApproximation::mul_in_place`: `for i in 0..9 { self.coefficients[i] *= scalar }`. -/
def SHFuncApproximation.mul_in_place (s : SHFuncApproximation) (scalar : ℚ) :
    SHFuncApproximation :=
  ⟨(List.range 9).foldl (fun l i => l.set i (l.getD i 0 * scalar)) s.coefficients⟩

/-- `SHFuncApproximation::add_in_place`: `for i in 0..9 { self.coefficients[i] += other.coefficients[i] }`. -/
def SHFuncApproximation.add_in_place (s other : SHFuncApproximation) :
    SHFuncApproximation :=
  ⟨(List.range 9).foldl
    (fun l i => l.set i (l.getD i 0 + other.coefficients.getD i 0))
    s.coefficients⟩

/-- `SHFuncApproximation::convolution` (`spherical_harmonics.rs` lines 75–85):
sum of index-wise coefficient products over `0..9`, multiplied by `16·π²`
(written `16f32 * PI * PI * result` in the source). -/
def SHFuncApproximation.convolution (s other : SHFuncApproximation) : ℚ :=
  let result := (List.range 9).foldl
    (fun acc i => acc + s.coefficients.getD i 0 * other.coefficients.getD i 0) 0
  16 * PI * PI * result

/-- `SHFuncApproximation::from_direction` (`spherical_harmonics.rs` lines
92–116): overwrites the coefficient vector in place with the closed-form
order-3 SH basis evaluated at `direction`, following the source's exact
constants, temporaries and write order. -/
def SHFuncApproximation.from_direction (s : SHFuncApproximation)
    (direction : Direction) : SHFuncApproximation :=
  let sh := s.coefficients
  let f_x := direction.x
  let f_y := direction.y
  let f_z := direction.z
  let f_z2 := f_z * f_z
  let sh := sh.set 0 0.2820947917738781
  let sh := sh.set 2 (0.4886025119029199 * f_z)
  let sh := sh.set 6 (0.9461746957575601 * f_z2 + -0.3153915652525201)
  let f_c0 := f_x
  let f_s0 := f_y
  let f_tmp_a : ℚ := -0.48860251190292
  let sh := sh.set 3 (f_tmp_a * f_c0)
  let sh := sh.set 1 (f_tmp_a * f_s0)
  let f_tmp_b := -1.092548430592079 * f_z
  let sh := sh.set 7 (f_tmp_b * f_c0)
  let sh := sh.set 5 (f_tmp_b * f_s0)
  let f_c1 := f_x * f_c0 - f_y * f_s0
  let f_s1 := f_x * f_s0 + f_y * f_c0
  let f_tmp_c : ℚ := 0.5462742152960395
  let sh := sh.set 8 (f_tmp_c * f_c1)
  let sh := sh.set 4 (f_tmp_c * f_s1)
  ⟨sh⟩

/-- `SHFuncApproximation::eval` (`spherical_harmonics.rs` lines 68–71):
overwrites `workspace` via `from_direction`, then returns
`self.convolution(workspace) / (4 * PI)`.  The mutated workspace is returned
as the second component. -/
def SHFuncApproximation.eval (s : SHFuncApproximation) (direction : Direction)
    (workspace : SHFuncApproximation) : ℚ × SHFuncApproximation :=
  let w := workspace.from_direction direction
  (s.convolution w / (4 * PI), w)

/-- The basis vector of a direction: `from_direction` applied to a fresh
zero-initialized `SHFuncApproximation` (how `from_function` first fills its
`temporary`). -/
def basisAt (direction : Direction) : SHFuncApproximation :=
  SHFuncApproximation.new.from_direction direction

/-! ### Helper lemmas on length-9 coefficient vectors -/

lemma length_nine_exists (l : List ℚ) (h : l.length = 9) :
    ∃ u0 u1 u2 u3 u4 u5 u6 u7 u8,
      l = [u0, u1, u2, u3, u4, u5, u6, u7, u8] := by
  rcases l with _ | ⟨u0, r0⟩
  · simp only [List.length_nil] at h; omega
  rcases r0 with _ | ⟨u1, r1⟩
  · simp only [List.length_cons, List.length_nil] at h; omega
  rcases r1 with _ | ⟨u2, r2⟩
  · simp only [List.length_cons, List.length_nil] at h; omega
  rcases r2 with _ | ⟨u3, r3⟩
  · simp only [List.length_cons, List.length_nil] at h; omega
  rcases r3 with _ | ⟨u4, r4⟩
  · simp only [List.length_cons, List.length_nil] at h; omega
  rcases r4 with _ | ⟨u5, r5⟩
  · simp only [List.length_cons, List.length_nil] at h; omega
  rcases r5 with _ | ⟨u6, r6⟩
  · simp only [List.length_cons, List.length_nil] at h; omega
  rcases r6 with _ | ⟨u7, r7⟩
  · simp only [List.length_cons, List.length_nil] at h; omega
  rcases r7 with _ | ⟨u8, r8⟩
  · simp only [List.length_cons, List.length_nil] at h; omega
  rcases r8 with _ | ⟨u9, r9⟩
  · exact ⟨u0, u1, u2, u3, u4, u5, u6, u7, u8, rfl⟩
  · simp only [List.length_cons] at h; omega

lemma mul_in_place_nine (u0 u1 u2 u3 u4 u5 u6 u7 u8 k : ℚ) :
    SHFuncApproximation.mul_in_place ⟨[u0, u1, u2, u3, u4, u5, u6, u7, u8]⟩ k
      = ⟨[u0 * k, u1 * k, u2 * k, u3 * k, u4 * k, u5 * k, u6 * k, u7 * k,
          u8 * k]⟩ := rfl

lemma add_in_place_nine (u0 u1 u2 u3 u4 u5 u6 u7 u8
    t0 t1 t2 t3 t4 t5 t6 t7 t8 : ℚ) :
    SHFuncApproximation.add_in_place ⟨[u0, u1, u2, u3, u4, u5, u6, u7, u8]⟩
        ⟨[t0, t1, t2, t3, t4, t5, t6, t7, t8]⟩
      = ⟨[u0 + t0, u1 + t1, u2 + t2, u3 + t3, u4 + t4, u5 + t5, u6 + t6,
          u7 + t7, u8 + t8]⟩ := rfl

lemma convolution_nine (u0 u1 u2 u3 u4 u5 u6 u7 u8
    t0 t1 t2 t3 t4 t5 t6 t7 t8 : ℚ) :
    SHFuncApproximation.convolution ⟨[u0, u1, u2, u3, u4, u5, u6, u7, u8]⟩
        ⟨[t0, t1, t2, t3, t4, t5, t6, t7, t8]⟩
      = 16 * PI * PI * (0 + u0 * t0 + u1 * t1 + u2 * t2 + u3 * t3 + u4 * t4
          + u5 * t5 + u6 * t6 + u7 * t7 + u8 * t8) := rfl

lemma from_direction_nine (u0 u1 u2 u3 u4 u5 u6 u7 u8 : ℚ) (d : Direction) :
    SHFuncApproximation.from_direction ⟨[u0, u1, u2, u3, u4, u5, u6, u7, u8]⟩ d
      = basisAt d := rfl

/-- `from_direction` on any length-9 coefficient vector fully overwrites it,
leaving the canonical basis vector of the direction. -/
lemma from_direction_of_length_nine (s : SHFuncApproximation)
    (h : s.coefficients.length = 9) (d : Direction) :
    s.from_direction d = basisAt d := by
  obtain ⟨u0, u1, u2, u3, u4, u5, u6, u7, u8, hl⟩ :=
    length_nine_exists s.coefficients h
  obtain ⟨l⟩ := s
  cases hl
  exact from_direction_nine _ _ _ _ _ _ _ _ _ d

lemma basisAt_coefficients (d : Direction) :
    (basisAt d).coefficients
      = [0.2820947917738781,
         -0.48860251190292 * d.y,
         0.4886025119029199 * d.z,
         -0.48860251190292 * d.x,
         0.5462742152960395 * (d.x * d.y + d.y * d.x),
         -1.092548430592079 * d.z * d.y,
         0.9461746957575601 * (d.z * d.z) + -0.3153915652525201,
         -1.092548430592079 * d.z * d.x,
         0.5462742152960395 * (d.x * d.x - d.y * d.y)] := rfl

/-! ### Length preservation -/

lemma foldl_set_length (v : List ℚ → ℕ → ℚ) :
    ∀ (is : List ℕ) (l : List ℚ),
      (is.foldl (fun l i => l.set i (v l i)) l).length = l.length := by
  intro is
  induction is with
  | nil => intro l; rfl
  | cons i is ih => intro l; simp only [List.foldl_cons, ih, List.length_set]

lemma mul_in_place_length (s : SHFuncApproximation) (k : ℚ) :
    (s.mul_in_place k).coefficients.length = s.coefficients.length :=
  foldl_set_length _ _ _

lemma add_in_place_length (s other : SHFuncApproximation) :
    (s.add_in_place other).coefficients.length = s.coefficients.length :=
  foldl_set_length _ _ _

lemma from_direction_length (s : SHFuncApproximation) (d : Direction) :
    (s.from_direction d).coefficients.length = s.coefficients.length := by
  simp [SHFuncApproximation.from_direction, List.length_set]

lemma new_length : SHFuncApproximation.new.coefficients.length = 9 := rfl

lemma basisAt_length (d : Direction) : (basisAt d).coefficients.length = 9 :=
  rfl

/-! ### Index access through the in-place operations -/

lemma mul_in_place_getD (s : SHFuncApproximation)
    (h : s.coefficients.length = 9) (k : ℚ) (j : ℕ) :
    (s.mul_in_place k).coefficients.getD j 0
      = s.coefficients.getD j 0 * k := by
  obtain ⟨u0, u1, u2, u3, u4, u5, u6, u7, u8, hl⟩ :=
    length_nine_exists s.coefficients h
  obtain ⟨l⟩ := s
  cases hl
  rw [mul_in_place_nine]
  rcases j with _ | _ | _ | _ | _ | _ | _ | _ | _ | j <;>
    simp [List.getD]

lemma add_in_place_getD (s other : SHFuncApproximation)
    (hs : s.coefficients.length = 9) (ho : other.coefficients.length = 9)
    (j : ℕ) :
    (s.add_in_place other).coefficients.getD j 0
      = s.coefficients.getD j 0 + other.coefficients.getD j 0 := by
  obtain ⟨u0, u1, u2, u3, u4, u5, u6, u7, u8, hl⟩ :=
    length_nine_exists s.coefficients hs
  obtain ⟨t0, t1, t2, t3, t4, t5, t6, t7, t8, hm⟩ :=
    length_nine_exists other.coefficients ho
  obtain ⟨l⟩ := s
  obtain ⟨m⟩ := other
  cases hl
  cases hm
  rw [add_in_place_nine]
  rcases j with _ | _ | _ | _ | _ | _ | _ | _ | _ | j <;>
    simp [List.getD]

/-! ### Random-direction streams

The Rust code is generic over `R : Rng`; each call
`Direction::generate_random_on_sphere(&mut rng)` draws one direction and
advances the generator.  We model any such direction source in state-passing
style: `sample : σ → Direction × σ`.  `rngIter` is the generator state after
`n` draws and `dirAt` the `n`-th drawn direction. -/

def rngIter {σ : Type} (sample : σ → Direction × σ) (rng : σ) : ℕ → σ
  | 0 => rng
  | n + 1 => (sample (rngIter sample rng n)).2

def dirAt {σ : Type} (sample : σ → Direction × σ) (rng : σ) (n : ℕ) :
    Direction :=
  (sample (rngIter sample rng n)).1

lemma rngIter_shift {σ : Type} (sample : σ → Direction × σ) (rng : σ) :
    ∀ n, rngIter sample rng (n + 1) = rngIter sample (sample rng).2 n := by
  intro n
  induction n with
  | zero => rfl
  | succ n ih =>
    show (sample (rngIter sample rng (n + 1))).2
        = (sample (rngIter sample (sample rng).2 n)).2
    rw [ih]

lemma dirAt_shift {σ : Type} (sample : σ → Direction × σ) (rng : σ) (n : ℕ) :
    dirAt sample rng (n + 1) = dirAt sample (sample rng).2 n := by
  simp only [dirAt, rngIter_shift]

lemma dirAt_zero {σ : Type} (sample : σ → Direction × σ) (rng : σ) :
    dirAt sample rng 0 = (sample rng).1 := rfl

/-! ### `from_function` (`spherical_harmonics.rs` lines 118–138) -/

/-- The body of the `for _i in 0..count` loop of
`SHFuncApproximation::from_function`, threading the accumulator, the reused
`temporary`, and the generator state. -/
def from_function_loop {σ : Type} (func : ℚ → ℚ → ℚ → ℚ)
    (sample : σ → Direction × σ) :
    ℕ → SHFuncApproximation → SHFuncApproximation → σ →
    SHFuncApproximation × SHFuncApproximation × σ
  | 0, approximation, temporary, rng => (approximation, temporary, rng)
  | n + 1, approximation, temporary, rng =>
    let p := sample rng
    let direction := p.1
    let temporary2 := temporary.from_direction direction
    let func_value := func direction.x direction.y direction.z
    let temporary3 := temporary2.mul_in_place func_value
    let approximation2 := approximation.add_in_place temporary3
    from_function_loop func sample n approximation2 temporary3 p.2

/-- `SHFuncApproximation::from_function`: runs the loop `count` times from
zero-initialized `approximation` and `temporary`, then scales by
`1 / count`. -/
def SHFuncApproximation.from_function {σ : Type} (func : ℚ → ℚ → ℚ → ℚ)
    (sample : σ → Direction × σ) (rng : σ) (count : ℕ) :
    SHFuncApproximation :=
  ((from_function_loop func sample count SHFuncApproximation.new
      SHFuncApproximation.new rng).1).mul_in_place (1 / (count : ℚ))

lemma from_function_loop_length {σ : Type} (func : ℚ → ℚ → ℚ → ℚ)
    (sample : σ → Direction × σ) :
    ∀ (n : ℕ) (acc temp : SHFuncApproximation) (rng : σ),
      (from_function_loop func sample n acc temp rng).1.coefficients.length
        = acc.coefficients.length := by
  intro n
  induction n with
  | zero => intro acc temp rng; rfl
  | succ n ih =>
    intro acc temp rng
    simp only [from_function_loop, ih, add_in_place_length]

lemma from_function_loop_getD {σ : Type} (func : ℚ → ℚ → ℚ → ℚ)
    (sample : σ → Direction × σ) :
    ∀ (n : ℕ) (acc temp : SHFuncApproximation) (rng : σ) (j : ℕ),
      acc.coefficients.length = 9 → temp.coefficients.length = 9 →
      (from_function_loop func sample n acc temp rng).1.coefficients.getD j 0
        = acc.coefficients.getD j 0 +
          (Finset.range n).sum (fun i =>
            func (dirAt sample rng i).x (dirAt sample rng i).y
                (dirAt sample rng i).z *
              (basisAt (dirAt sample rng i)).coefficients.getD j 0) := by
  intro n
  induction n with
  | zero =>
    intro acc temp rng j _ _
    simp [from_function_loop]
  | succ n ih =>
    intro acc temp rng j hacc htemp
    have htemp2 : (temp.from_direction (sample rng).1) = basisAt (sample rng).1 :=
      from_direction_of_length_nine temp htemp (sample rng).1
    have hb9 : (basisAt (sample rng).1).coefficients.length = 9 :=
      basisAt_length _
    have htemp3 : ((basisAt (sample rng).1).mul_in_place
        (func (sample rng).1.x (sample rng).1.y (sample rng).1.z)).coefficients.length = 9 := by
      rw [mul_in_place_length]; exact hb9
    have hacc2 : (acc.add_in_place ((basisAt (sample rng).1).mul_in_place
        (func (sample rng).1.x (sample rng).1.y (sample rng).1.z))).coefficients.length = 9 := by
      rw [add_in_place_length]; exact hacc
    simp only [from_function_loop, htemp2]
    rw [ih _ _ _ j hacc2 htemp3]
    rw [add_in_place_getD _ _ hacc htemp3,
      mul_in_place_getD _ hb9]
    rw [Finset.sum_range_succ']
    have hshift : ∀ i, dirAt sample rng (i + 1) = dirAt sample (sample rng).2 i :=
      fun i => dirAt_shift sample rng i
    simp only [hshift, dirAt_zero]
    ring

/-! ### Monte Carlo integration (`spherical_integration.rs`) -/

/-- The summation loop shared by `integrate_real_space` and
`integrate_real_space_hemisphere`: `sum += func(direction.x, ...)` over
`count` draws from the supplied direction source. -/
def integrate_loop {σ : Type} (func : ℚ → ℚ → ℚ → ℚ)
    (sample : σ → Direction × σ) : ℕ → ℚ → σ → ℚ × σ
  | 0, sum, rng => (sum, rng)
  | n + 1, sum, rng =>
    let p := sample rng
    integrate_loop func sample n (sum + func p.1.x p.1.y p.1.z) p.2

/-- `integrate_real_space` (`spherical_integration.rs` lines 5–16): sums
`func` over `count` sphere samples and returns `4 * PI * sum / count`. -/
def integrate_real_space {σ : Type} (func : ℚ → ℚ → ℚ → ℚ)
    (sample : σ → Direction × σ) (rng : σ) (count : ℕ) : ℚ :=
  4 * PI * (integrate_loop func sample count 0 rng).1 / (count : ℚ)

/-- `integrate_real_space_hemisphere` (`spherical_integration.rs` lines
18–29): the same loop, drawing each direction from
`Direction::generate_random_on_hemisphere(normal, rng)`, and the same
`4 * PI * sum / count` result. -/
def integrate_real_space_hemisphere {σ : Type} (normal : Direction)
    (func : ℚ → ℚ → ℚ → ℚ) (sample : σ → Direction × σ) (rng : σ)
    (count : ℕ) : ℚ :=
  4 * PI * (integrate_loop func
      (fun r => Direction.generate_random_on_hemisphere normal sample r)
      count 0 rng).1 / (count : ℚ)

lemma integrate_loop_fst {σ : Type} (func : ℚ → ℚ → ℚ → ℚ)
    (sample : σ → Direction × σ) :
    ∀ (n : ℕ) (sum : ℚ) (rng : σ),
      (integrate_loop func sample n sum rng).1
        = sum + (Finset.range n).sum (fun i =>
            func (dirAt sample rng i).x (dirAt sample rng i).y
              (dirAt sample rng i).z) := by
  intro n
  induction n with
  | zero => intro sum rng; simp [integrate_loop]
  | succ n ih =>
    intro sum rng
    simp only [integrate_loop]
    rw [ih]
    rw [Finset.sum_range_succ']
    have hshift : ∀ i, dirAt sample rng (i + 1) = dirAt sample (sample rng).2 i :=
      fun i => dirAt_shift sample rng i
    simp only [hshift, dirAt_zero]
    ring

/-! ### The rejection sampler (`spherical.rs` lines 19–35)

`Direction::generate_random_on_sphere` draws three raw uniforms
`rng.gen::<f32>()` in `[0,1)`, maps each through `g * 2 - 1`, rejects when
the squared norm exceeds 1, and otherwise divides by `r2.sqrt()`.  The
square root forces this part of the embedding onto `ℝ`.  The raw generator
is modelled as the stream of triples it would produce; the unbounded `loop`
is modelled with explicit fuel (the source loop has no iteration cap). -/

/-- A direction as produced by the sampler, before any invariant check. -/
structure DirectionR where
  x : ℝ
  y : ℝ
  z : ℝ

/-- Squared euclidean norm of a sampler output. -/
def DirectionR.normSq (d : DirectionR) : ℝ :=
  d.x * d.x + d.y * d.y + d.z * d.z

/-- The candidate coordinate `rng.gen::<f32>() * 2f32 - 1f32` built from one
raw uniform draw `g`. -/
def candCoord (g : ℝ) : ℝ := g * 2 - 1

/-- One iteration of the `loop` in `Direction::generate_random_on_sphere`:
from the three raw draws, build the candidate, reject (`continue`, here
`none`) when `r2 > 1`, otherwise return the candidate divided by
`r2.sqrt()`. -/
noncomputable def sphere_trial (g1 g2 g3 : ℝ) : Option DirectionR :=
  let x := candCoord g1
  let y := candCoord g2
  let z := candCoord g3
  let r2 := x * x + y * y + z * z
  if r2 > 1 then none
  else
    let r := Real.sqrt r2
    some ⟨x / r, y / r, z / r⟩

/-- `Direction::generate_random_on_sphere`, with the generator modelled as
the stream of raw-draw triples it produces and the unbounded `loop` given
explicit fuel: the first accepted trial is returned. -/
noncomputable def generate_random_on_sphere (draws : ℕ → ℝ × ℝ × ℝ) :
    ℕ → Option DirectionR
  | 0 => none
  | fuel + 1 =>
    match sphere_trial (draws 0).1 (draws 0).2.1 (draws 0).2.2 with
    | some d => some d
    | none => generate_random_on_sphere (fun n => draws (n + 1)) fuel

lemma sphere_trial_none_iff (g1 g2 g3 : ℝ) :
    sphere_trial g1 g2 g3 = none ↔
      1 < candCoord g1 * candCoord g1 + candCoord g2 * candCoord g2 +
          candCoord g3 * candCoord g3 := by
  simp only [sphere_trial]
  split
  · simp_all [gt_iff_lt]
  · simp_all [gt_iff_lt]

lemma sphere_trial_some (g1 g2 g3 : ℝ) (d : DirectionR)
    (h : sphere_trial g1 g2 g3 = some d) :
    d = ⟨candCoord g1 / Real.sqrt (candCoord g1 * candCoord g1 +
            candCoord g2 * candCoord g2 + candCoord g3 * candCoord g3),
          candCoord g2 / Real.sqrt (candCoord g1 * candCoord g1 +
            candCoord g2 * candCoord g2 + candCoord g3 * candCoord g3),
          candCoord g3 / Real.sqrt (candCoord g1 * candCoord g1 +
            candCoord g2 * candCoord g2 + candCoord g3 * candCoord g3)⟩
      ∧ candCoord g1 * candCoord g1 + candCoord g2 * candCoord g2 +
          candCoord g3 * candCoord g3 ≤ 1 := by
  simp only [sphere_trial] at h
  split at h
  · exact absurd h (by simp)
  · next hle =>
    refine ⟨?_, le_of_not_lt hle⟩
    exact (Option.some.injEq _ _).mp h.symm |>.symm ▸ by
      cases h; rfl

lemma generate_random_on_sphere_some :
    ∀ (fuel : ℕ) (draws : ℕ → ℝ × ℝ × ℝ) (d : DirectionR),
      generate_random_on_sphere draws fuel = some d →
      ∃ k, sphere_trial (draws k).1 (draws k).2.1 (draws k).2.2 = some d := by
  intro fuel
  induction fuel with
  | zero =>
    intro draws d h
    exact absurd h (by simp [generate_random_on_sphere])
  | succ fuel ih =>
    intro draws d h
    simp only [generate_random_on_sphere] at h
    split at h
    · next heq => exact ⟨0, by rw [heq, h]⟩
    · obtain ⟨k, hk⟩ := ih _ d h
      exact ⟨k + 1, hk⟩

/-! ### Claim theorems -/

lemma new_getD (j : ℕ) :
    SHFuncApproximation.new.coefficients.getD j 0 = 0 := by
  rcases j with _ | _ | _ | _ | _ | _ | _ | _ | _ | j <;>
    simp [SHFuncApproximation.new, List.getD]

/-- C1: for every direction, `from_direction` overwrites the 9-coefficient
vector with exactly the closed-form values of the claim: coefficient 0 the
constant `0.2820947917738781`, coefficient 2 `0.4886025119029199·z`,
coefficient 6 `0.9461746957575601·z² − 0.3153915652525201`, coefficients 3
and 1 `−0.48860251190292·x` and `−0.48860251190292·y`, coefficients 7 and 5
`(−1.092548430592079·z)·x` and `(−1.092548430592079·z)·y`, and coefficients
8 and 4 `0.5462742152960395·(x²−y²)` and `0.5462742152960395·(x·y+y·x)`. -/
theorem claim_C1_from_direction_closed_form (d : Direction)
    (w : SHFuncApproximation) (h : w.coefficients.length = 9) :
    (w.from_direction d).coefficients
      = [0.2820947917738781,
         -0.48860251190292 * d.y,
         0.4886025119029199 * d.z,
         -0.48860251190292 * d.x,
         0.5462742152960395 * (d.x * d.y + d.y * d.x),
         -1.092548430592079 * d.z * d.y,
         0.9461746957575601 * (d.z * d.z) - 0.3153915652525201,
         -1.092548430592079 * d.z * d.x,
         0.5462742152960395 * (d.x * d.x - d.y * d.y)] := by
  rw [from_direction_of_length_nine w h d, basisAt_coefficients]
  simp [sub_eq_add_neg]

theorem claim_C1_witness :
    (SHFuncApproximation.new.from_direction ⟨0, 0, 1⟩).coefficients
      = [0.2820947917738781,
         -0.48860251190292 * (0 : ℚ),
         0.4886025119029199 * (1 : ℚ),
         -0.48860251190292 * (0 : ℚ),
         0.5462742152960395 * ((0 : ℚ) * 0 + 0 * 0),
         -1.092548430592079 * (1 : ℚ) * 0,
         0.9461746957575601 * ((1 : ℚ) * 1) - 0.3153915652525201,
         -1.092548430592079 * (1 : ℚ) * 0,
         0.5462742152960395 * ((0 : ℚ) * 0 - 0 * 0)] :=
  claim_C1_from_direction_closed_form ⟨0, 0, 1⟩ SHFuncApproximation.new rfl

/-- C2: `convolution` returns `16·π²` times the sum over indices 0–8 of the
index-wise coefficient products. -/
theorem claim_C2_convolution_formula (a b : SHFuncApproximation) :
    a.convolution b
      = 16 * PI ^ 2 * (Finset.range 9).sum
          (fun i => a.coefficients.getD i 0 * b.coefficients.getD i 0) := by
  have h : a.convolution b = 16 * PI * PI *
      (0 + a.coefficients.getD 0 0 * b.coefficients.getD 0 0
         + a.coefficients.getD 1 0 * b.coefficients.getD 1 0
         + a.coefficients.getD 2 0 * b.coefficients.getD 2 0
         + a.coefficients.getD 3 0 * b.coefficients.getD 3 0
         + a.coefficients.getD 4 0 * b.coefficients.getD 4 0
         + a.coefficients.getD 5 0 * b.coefficients.getD 5 0
         + a.coefficients.getD 6 0 * b.coefficients.getD 6 0
         + a.coefficients.getD 7 0 * b.coefficients.getD 7 0
         + a.coefficients.getD 8 0 * b.coefficients.getD 8 0) := rfl
  rw [h]
  rw [show (9 : ℕ) = 8 + 1 from rfl, Finset.sum_range_succ,
    Finset.sum_range_succ, Finset.sum_range_succ, Finset.sum_range_succ,
    Finset.sum_range_succ, Finset.sum_range_succ, Finset.sum_range_succ,
    Finset.sum_range_succ, Finset.sum_range_succ, Finset.sum_range_zero]
  ring

/-- C3: `from_function` returns `(1/N) · Σ_{i<N} f(ωᵢ) · basis(ωᵢ)` where
`ω₀, ω₁, …` are the successive directions produced by the supplied sampler:
each accumulator coefficient is the sample mean of the function value times
the corresponding basis coefficient. -/
theorem claim_C3_from_function_monte_carlo {σ : Type}
    (func : ℚ → ℚ → ℚ → ℚ) (sample : σ → Direction × σ) (rng : σ)
    (count : ℕ) (_hpos : 0 < count) (j : ℕ) :
    (SHFuncApproximation.from_function func sample rng count).coefficients.getD j 0
      = (1 / (count : ℚ)) * (Finset.range count).sum (fun i =>
          func (dirAt sample rng i).x (dirAt sample rng i).y
              (dirAt sample rng i).z *
            (basisAt (dirAt sample rng i)).coefficients.getD j 0) := by
  unfold SHFuncApproximation.from_function
  have hlen : (from_function_loop func sample count SHFuncApproximation.new
      SHFuncApproximation.new rng).1.coefficients.length = 9 := by
    rw [from_function_loop_length]; exact new_length
  rw [mul_in_place_getD _ hlen]
  rw [from_function_loop_getD func sample count _ _ rng j new_length new_length]
  rw [new_getD]
  ring

theorem claim_C3_witness :
    (SHFuncApproximation.from_function (fun _ _ _ => 2)
        (fun u : Unit => (⟨0, 0, 1⟩, u)) () 1).coefficients.getD 0 0
      = (1 / ((1 : ℕ) : ℚ)) * (Finset.range 1).sum (fun i =>
          (fun _ _ _ => (2 : ℚ))
              (dirAt (fun u : Unit => (⟨0, 0, 1⟩, u)) () i).x
              (dirAt (fun u : Unit => (⟨0, 0, 1⟩, u)) () i).y
              (dirAt (fun u : Unit => (⟨0, 0, 1⟩, u)) () i).z *
            (basisAt (dirAt (fun u : Unit => (⟨0, 0, 1⟩, u)) () i)).coefficients.getD 0 0) :=
  claim_C3_from_function_monte_carlo (fun _ _ _ => 2)
    (fun u : Unit => (⟨0, 0, 1⟩, u)) () 1 (by decide) 0

/-- C4: `eval` overwrites the caller-supplied workspace with the basis of
the direction and returns `convolution(self, workspace) / (4π)`. -/
theorem claim_C4_eval (s : SHFuncApproximation) (d : Direction)
    (w : SHFuncApproximation) (h : w.coefficients.length = 9) :
    s.eval d w = (s.convolution (basisAt d) / (4 * PI), basisAt d) := by
  unfold SHFuncApproximation.eval
  rw [from_direction_of_length_nine w h d]

theorem claim_C4_witness :
    SHFuncApproximation.new.eval ⟨1, 0, 0⟩ SHFuncApproximation.new
      = (SHFuncApproximation.new.convolution (basisAt ⟨1, 0, 0⟩) / (4 * PI),
         basisAt ⟨1, 0, 0⟩) :=
  claim_C4_eval SHFuncApproximation.new ⟨1, 0, 0⟩ SHFuncApproximation.new rfl

/-- C5: `integrate_real_space_hemisphere` returns `4π/N` times the sum of
`func` over the `N` hemisphere-sampled directions — the same `4π/N` factor
as the full-sphere `integrate_real_space` (second conjunct), not `2π/N`. -/
theorem claim_C5_hemisphere_scale_factor {σ : Type} (normal : Direction)
    (func : ℚ → ℚ → ℚ → ℚ) (sample : σ → Direction × σ) (rng : σ)
    (count : ℕ) :
    (integrate_real_space_hemisphere normal func sample rng count
      = 4 * PI * (Finset.range count).sum (fun i =>
          func (dirAt (fun r =>
              Direction.generate_random_on_hemisphere normal sample r) rng i).x
            (dirAt (fun r =>
              Direction.generate_random_on_hemisphere normal sample r) rng i).y
            (dirAt (fun r =>
              Direction.generate_random_on_hemisphere normal sample r) rng i).z)
        / (count : ℚ))
    ∧ (integrate_real_space func sample rng count
      = 4 * PI * (Finset.range count).sum (fun i =>
          func (dirAt sample rng i).x (dirAt sample rng i).y
            (dirAt sample rng i).z) / (count : ℚ)) := by
  constructor
  · unfold integrate_real_space_hemisphere
    rw [integrate_loop_fst]
    rw [zero_add]
  · unfold integrate_real_space
    rw [integrate_loop_fst]
    rw [zero_add]

/-- C6: `Direction::new` fails (panics) exactly when
`|x² + y² + z² − 1| ≥ 1e-5`, and on success returns the components
unmodified (no normalizing or clamping). -/
theorem claim_C6_direction_new_validation (x y z : ℚ) :
    (Direction.new x y z = none ↔ 1e-5 ≤ |x * x + y * y + z * z - 1|)
    ∧ (∀ d : Direction, Direction.new x y z = some d → d = ⟨x, y, z⟩) := by
  constructor
  · unfold Direction.new
    split
    · next h =>
      simp only [reduceCtorEq, false_iff, not_le]
      exact h
    · next h =>
      simp only [true_iff]
      exact not_lt.mp h
  · intro d hd
    unfold Direction.new at hd
    split at hd
    · cases hd; rfl
    · exact absurd hd (by simp)

theorem claim_C6_witness :
    Direction.new 2 0 1 = none ∧ Direction.new 1 0 0 = some ⟨1, 0, 0⟩ :=
  ⟨(claim_C6_direction_new_validation 2 0 1).1.mpr (by norm_num),
   by norm_num [Direction.new]⟩

/-- C8: every direction returned by the (spec-modelled)
`generate_random_on_hemisphere` satisfies `dot(normal, direction) ≥ 0`, the
contract the hemisphere integration caller asserts on. -/
theorem claim_C8_hemisphere_dot_nonneg {σ : Type} (normal : Direction)
    (sample : σ → Direction × σ) (rng : σ) :
    0 ≤ Direction.dot normal
        (Direction.generate_random_on_hemisphere normal sample rng).1 := by
  simp only [Direction.generate_random_on_hemisphere]
  split
  · next h =>
    show (0 : ℚ) ≤ Direction.dot normal
      ⟨-(sample rng).1.x, -(sample rng).1.y, -(sample rng).1.z⟩
    simp only [Direction.dot] at h ⊢
    nlinarith [h]
  · next h => exact not_lt.mp h

/-- C9: every `SHFuncApproximation` operation preserves the length-9
invariant of the coefficient vector: `new` creates it at length 9, the
in-place operations and `from_direction` never change the length, and
`from_function` returns length 9. -/
theorem claim_C9_length_invariant :
    SHFuncApproximation.new.coefficients.length = 9
    ∧ (∀ (s : SHFuncApproximation) (k : ℚ),
        (s.mul_in_place k).coefficients.length = s.coefficients.length)
    ∧ (∀ s other : SHFuncApproximation,
        (s.add_in_place other).coefficients.length = s.coefficients.length)
    ∧ (∀ (s : SHFuncApproximation) (d : Direction),
        (s.from_direction d).coefficients.length = s.coefficients.length)
    ∧ (∀ (σ : Type) (func : ℚ → ℚ → ℚ → ℚ) (sample : σ → Direction × σ)
        (rng : σ) (count : ℕ),
        (SHFuncApproximation.from_function func sample rng
            count).coefficients.length = 9) :=
  ⟨new_length, mul_in_place_length, add_in_place_length,
   from_direction_length,
   fun σ func sample rng count => by
     unfold SHFuncApproximation.from_function
     rw [mul_in_place_length, from_function_loop_length]
     exact new_length⟩

/-- C10: the scalar returned by `eval` does not depend on the initial
contents of the caller-supplied workspace: `from_direction` overwrites all
nine workspace coefficients before the inner product is taken. -/
theorem claim_C10_eval_workspace_independent (s : SHFuncApproximation)
    (d : Direction) (w1 w2 : SHFuncApproximation)
    (h1 : w1.coefficients.length = 9) (h2 : w2.coefficients.length = 9) :
    (s.eval d w1).1 = (s.eval d w2).1 := by
  unfold SHFuncApproximation.eval
  rw [from_direction_of_length_nine w1 h1, from_direction_of_length_nine w2 h2]

theorem claim_C10_witness :
    (SHFuncApproximation.new.eval ⟨0, 0, 1⟩ SHFuncApproximation.new).1
      = (SHFuncApproximation.new.eval ⟨0, 0, 1⟩
          ⟨[1, 1, 1, 1, 1, 1, 1, 1, 1]⟩).1 :=
  claim_C10_eval_workspace_independent SHFuncApproximation.new ⟨0, 0, 1⟩
    SHFuncApproximation.new ⟨[1, 1, 1, 1, 1, 1, 1, 1, 1]⟩ rfl rfl

/-- C7 counterexample: the raw draws `(1/2, 1/2, 1/2)` produce the candidate
`(0, 0, 0)`, whose squared norm `0` does not exceed `1` and is therefore
accepted; dividing by its zero norm yields `(0, 0, 0)` in the exact
embedding (`NaN` in `f32`), and the returned direction violates the
unit-norm invariant `|x² + y² + z² − 1| < 1e-5`. -/
theorem claim_C7_counterexample :
    generate_random_on_sphere (fun _ => (1 / 2, 1 / 2, 1 / 2)) 1
        = some ⟨0, 0, 0⟩
      ∧ ¬ |DirectionR.normSq ⟨0, 0, 0⟩ - 1| < 1e-5 := by
  constructor
  · have h0 : candCoord (1 / 2) = 0 := by norm_num [candCoord]
    have htrial : sphere_trial (1 / 2) (1 / 2) (1 / 2) = some ⟨0, 0, 0⟩ := by
      simp only [sphere_trial, h0]
      norm_num [Real.sqrt_zero]
    simp only [generate_random_on_sphere, htrial]
  · simp only [DirectionR.normSq]
    norm_num

/-- C7 (amended): `generate_random_on_sphere` maps each raw uniform draw
`g ∈ [0, 1)` to a candidate coordinate `g·2 − 1 ∈ [−1, 1)`, rejects a
candidate exactly when its squared norm exceeds 1, on acceptance returns
the candidate divided by the square root of its squared norm, and — the
amendment — every returned direction whose accepted candidate has NONZERO
squared norm satisfies the unit-norm invariant `|x² + y² + z² − 1| < 1e-5`
(indeed with squared norm exactly 1); the all-zero candidate is accepted
but yields a division by zero.  Any direction the fueled loop returns is
the result of one such accepted trial. -/
theorem claim_C7_amended :
    (∀ g : ℝ, 0 ≤ g → g < 1 → -1 ≤ candCoord g ∧ candCoord g < 1)
    ∧ (∀ g1 g2 g3 : ℝ, sphere_trial g1 g2 g3 = none ↔
        1 < candCoord g1 * candCoord g1 + candCoord g2 * candCoord g2 +
            candCoord g3 * candCoord g3)
    ∧ (∀ (g1 g2 g3 : ℝ) (d : DirectionR), sphere_trial g1 g2 g3 = some d →
        d = ⟨candCoord g1 / Real.sqrt (candCoord g1 * candCoord g1 +
                candCoord g2 * candCoord g2 + candCoord g3 * candCoord g3),
             candCoord g2 / Real.sqrt (candCoord g1 * candCoord g1 +
                candCoord g2 * candCoord g2 + candCoord g3 * candCoord g3),
             candCoord g3 / Real.sqrt (candCoord g1 * candCoord g1 +
                candCoord g2 * candCoord g2 + candCoord g3 * candCoord g3)⟩
          ∧ (candCoord g1 * candCoord g1 + candCoord g2 * candCoord g2 +
                candCoord g3 * candCoord g3 ≠ 0 →
              |DirectionR.normSq d - 1| < 1e-5))
    ∧ (∀ (draws : ℕ → ℝ × ℝ × ℝ) (fuel : ℕ) (d : DirectionR),
        generate_random_on_sphere draws fuel = some d →
        ∃ k, sphere_trial (draws k).1 (draws k).2.1 (draws k).2.2 = some d) := by
  refine ⟨?_, ?_, ?_, fun draws fuel => generate_random_on_sphere_some fuel draws⟩
  · intro g h0 h1
    unfold candCoord
    constructor <;> linarith
  · exact sphere_trial_none_iff
  · intro g1 g2 g3 d hd
    obtain ⟨hval, hle⟩ := sphere_trial_some g1 g2 g3 d hd
    refine ⟨hval, ?_⟩
    intro hne
    set S := candCoord g1 * candCoord g1 + candCoord g2 * candCoord g2 +
      candCoord g3 * candCoord g3 with hS
    have hS0 : 0 ≤ S := by
      rw [hS]
      exact add_nonneg (add_nonneg (mul_self_nonneg _) (mul_self_nonneg _))
        (mul_self_nonneg _)
    have hnorm : DirectionR.normSq d = 1 := by
      rw [hval]
      unfold DirectionR.normSq
      rw [div_mul_div_comm, div_mul_div_comm, div_mul_div_comm,
        div_add_div_same, div_add_div_same, Real.mul_self_sqrt hS0]
      exact div_self hne
    rw [hnorm]
    norm_num

theorem claim_C7_amended_witness :
    sphere_trial 1 1 1 = none
      ∧ (-1 ≤ candCoord (1 / 2) ∧ candCoord (1 / 2) < 1) :=
  ⟨(claim_C7_amended.2.1 1 1 1).mpr (by norm_num [candCoord]),
   claim_C7_amended.1 (1 / 2) (by norm_num) (by norm_num)⟩
